import Mathlib

/-!
Verification of the Fermat probable-prime scanner (src/fermat.c).

The program scans candidates p = 3, 4, ..., max-1.  For each candidate it
runs up to 20 trials: each trial draws a random witness
a1 = rand() % (p - 2) + 2, evaluates the Fermat congruence with GMP
arithmetic (mpz_pow_ui, mpz_sub, mpz_mod_ui, mpz_cmp_ui), and on failure
records the witness as composite_witness and the previous witness (olda1)
as fermat_liar, leaving the while loop.  Afterwards it prints one line per
candidate.

We embed the program shallowly: GMP integers become Lean Int (mpz values
are signed, arbitrary precision), the three shared mpz variables a, e, r1
become an explicit MpzState threaded through the computation, the rand()
stream becomes a list of natural numbers, and the while loop becomes a
structurally recursive function on that list.
-/

/-- The three shared GMP variables of the program: a, e and r1.
mpz_init initialises each of them to 0. -/
structure MpzState where
  a : Int
  e : Int
  r1 : Int
deriving DecidableEq, Repr

/-- The state of the mpz variables right after the three mpz_init calls. -/
def mpzInit : MpzState := ⟨0, 0, 0⟩

/-- One congruence evaluation exactly as the loop body performs it on the
shared mpz variables, given the already sampled witness a1:
mpz_set_ui(a, a1); mpz_pow_ui(e, a, p); mpz_sub(e, e, a);
mpz_mod_ui(r1, e, p); then the comparison mpz_cmp_ui(r1, 0).
Returns the updated variables and the Bool that is true when the
congruence holds (r1 equals 0, i.e. cmp1 == 0). -/
def congrStep (p a1 : Nat) (m : MpzState) : MpzState × Bool :=
  let a : Int := (a1 : Int)
  let e : Int := a ^ p
  let e2 : Int := e - a
  let r1 : Int := e2 % (p : Int)
  (⟨a, e2, r1⟩, r1 == 0)

/-- The congruence check as a function of (p, a1) alone: the evaluation on
freshly initialised mpz variables. -/
def congruence_holds (p a1 : Nat) : Bool := (congrStep p a1 mpzInit).2

/-- Witness sampling: a1 = rand() % (p - 2) + 2, where r is the value
returned by rand(). -/
def sampleWitness (p r : Nat) : Nat := r % (p - 2) + 2

/-- The per-candidate loop variables: trial, composite_witness,
fermat_liar and a1. -/
structure LoopState where
  trial : Nat
  composite_witness : Nat
  fermat_liar : Nat
  a1 : Nat
deriving DecidableEq, Repr

/-- The loop variables as initialised before the while loop:
trial = 0, composite_witness = 0, fermat_liar = 0, a1 = 0. -/
def initLoop : LoopState := ⟨0, 0, 0, 0⟩

/-- One iteration of the while-loop body (pure form): save olda1 := a1,
sample the new a1 from the rand() value r, evaluate the congruence; on
failure set composite_witness := a1 and fermat_liar := olda1; finally
increment trial. -/
def trialStep (p : Nat) (s : LoopState) (r : Nat) : LoopState :=
  let olda1 := s.a1
  let a1 := sampleWitness p r
  if congruence_holds p a1 then
    ⟨s.trial + 1, s.composite_witness, s.fermat_liar, a1⟩
  else
    ⟨s.trial + 1, a1, olda1, a1⟩

/-- The while loop: while (trial < 20 && composite_witness == 0) run the
body, consuming one rand() value per iteration.  Returns the final loop
variables together with the unconsumed rand() values. -/
def trialLoop (p : Nat) : List Nat → LoopState → LoopState × List Nat
  | [], s => (s, [])
  | r :: rest, s =>
    if s.trial < 20 ∧ s.composite_witness = 0 then
      trialLoop p rest (trialStep p s r)
    else (s, r :: rest)

/-- One iteration of the while-loop body with the shared mpz variables
threaded through, as in the source: the congruence is evaluated by
overwriting the shared a, e, r1. -/
def trialStepM (p : Nat) (s : LoopState) (m : MpzState) (r : Nat) :
    LoopState × MpzState :=
  let olda1 := s.a1
  let a1 := sampleWitness p r
  let res := congrStep p a1 m
  if res.2 then
    (⟨s.trial + 1, s.composite_witness, s.fermat_liar, a1⟩, res.1)
  else
    (⟨s.trial + 1, a1, olda1, a1⟩, res.1)

/-- The while loop with the shared mpz variables threaded through: the
same storage a, e, r1 is reused by every trial, exactly as in the
source. -/
def trialLoopM (p : Nat) :
    List Nat → LoopState → MpzState → (LoopState × MpzState) × List Nat
  | [], s, m => ((s, m), [])
  | r :: rest, s, m =>
    if s.trial < 20 ∧ s.composite_witness = 0 then
      let sm := trialStepM p s m r
      trialLoopM p rest sm.1 sm.2
    else ((s, m), r :: rest)

/-- Running the whole trial loop for one candidate from the initial loop
variables. -/
def runCandidate (p : Nat) (rands : List Nat) : LoopState × List Nat :=
  trialLoop p rands initLoop

/-- The classification of one candidate, read off the loop variables the
way the reporting code branches on them. -/
inductive TestOutcome where
  | ProbablePrime : TestOutcome
  | Composite : Nat → Option Nat → TestOutcome
deriving DecidableEq, Repr

/-- The outcome determined by the final loop variables: composite_witness
== 0 means probable prime, otherwise composite, with a liar exactly when
fermat_liar > 0. -/
def outcomeOf (s : LoopState) : TestOutcome :=
  if s.composite_witness = 0 then TestOutcome.ProbablePrime
  else TestOutcome.Composite s.composite_witness
    (if 0 < s.fermat_liar then some s.fermat_liar else none)

/-- The line printed for one candidate, assembled exactly as the printf
calls assemble it (without the trailing newline): either
"%d is a probable prime", or "%d is composite - %d is a composite witness"
followed, when fermat_liar > 0, by " - %d is a fermat liar for %d". -/
def reportLine (p : Nat) (s : LoopState) : String :=
  if s.composite_witness = 0 then
    toString p ++ " is a probable prime"
  else
    (toString p ++ " is composite - " ++ toString s.composite_witness ++
      " is a composite witness") ++
    (if 0 < s.fermat_liar then
      " - " ++ toString s.fermat_liar ++ " is a fermat liar for " ++ toString p
    else "")

/-- Modelled from the spec: the three verbatim output formats of section 6,
one per outcome shape. -/
def specLine (p : Nat) (o : TestOutcome) : String :=
  match o with
  | TestOutcome.ProbablePrime => toString p ++ " is a probable prime"
  | TestOutcome.Composite w none =>
      toString p ++ " is composite - " ++ toString w ++ " is a composite witness"
  | TestOutcome.Composite w (some l) =>
      toString p ++ " is composite - " ++ toString w ++
        " is a composite witness - " ++ toString l ++
        " is a fermat liar for " ++ toString p

/-- The candidate scan, counting down the number of remaining candidates:
scanGo p n rands tests the n candidates p, p+1, ..., p+n-1 in order,
threading the rand() stream from one candidate to the next. -/
def scanGo : Nat → Nat → List Nat → List (Nat × TestOutcome)
  | _, 0, _ => []
  | p, n + 1, rands =>
    let res := runCandidate p rands
    (p, outcomeOf res.1) :: scanGo (p + 1) n res.2

/-- The for loop of main: for (p = 3; p < max; ++p), i.e. the max - 3
candidates 3, 4, ..., max - 1. -/
def scan (max : Nat) (rands : List Nat) : List (Nat × TestOutcome) :=
  scanGo 3 (max - 3) rands

/-- Claim C1: for p >= 3 and 2 <= a <= p - 1, the per-trial congruence
check returns true exactly when (a^p - a) mod p = 0, with a^p computed by
exact unbounded exponentiation and a subtracted exactly (here in Nat,
where the subtraction is exact because a <= a^p). -/
theorem congruence_check_correct (p a : Nat) (hp : 3 ≤ p) (ha : 2 ≤ a)
    (hap : a ≤ p - 1) :
    congruence_holds p a = true ↔ (a ^ p - a) % p = 0 := by
  have hpow : a ≤ a ^ p := Nat.le_self_pow (by omega) a
  have hcast : ((a : Int) ^ p - (a : Int)) = ((a ^ p - a : Nat) : Int) := by
    push_cast [Nat.cast_sub hpow]
    ring
  simp only [congruence_holds, congrStep, mpzInit, beq_iff_eq]
  rw [hcast]
  exact_mod_cast Iff.rfl

/-- Witness for C1 at p = 5, a = 2. -/
theorem congruence_check_correct_witness :
    3 ≤ 5 ∧ 2 ≤ 2 ∧ 2 ≤ 5 - 1 ∧
      (congruence_holds 5 2 = true ↔ (2 ^ 5 - 2) % 5 = 0) :=
  ⟨by decide, by decide, by decide,
    congruence_check_correct 5 2 (by decide) (by decide) (by decide)⟩

/-- Every sampled witness is at least 2, whatever rand() returned. -/
lemma sampleWitness_ge_two (p r : Nat) : 2 ≤ sampleWitness p r := by
  unfold sampleWitness; omega

/-- When the while guard is false the loop returns at once, consuming no
rand() values. -/
lemma trialLoop_exit (p : Nat) (rands : List Nat) (s : LoopState)
    (h : ¬(s.trial < 20 ∧ s.composite_witness = 0)) :
    trialLoop p rands s = (s, rands) := by
  cases rands with
  | nil => rfl
  | cons r rest => simp [trialLoop, h]

/-- A failing trial taken from a running state: the body runs once and the
loop exits, leaving the rest of the rand() stream untouched. -/
lemma trialLoop_fail_step (p r : Nat) (rest : List Nat) (s : LoopState)
    (ht : s.trial < 20) (hc : s.composite_witness = 0)
    (hf : congruence_holds p (sampleWitness p r) = false) :
    trialLoop p (r :: rest) s =
      (⟨s.trial + 1, sampleWitness p r, s.a1, sampleWitness p r⟩, rest) := by
  have hs : trialStep p s r =
      ⟨s.trial + 1, sampleWitness p r, s.a1, sampleWitness p r⟩ := by
    simp [trialStep, hf]
  have h1 : trialLoop p (r :: rest) s = trialLoop p rest (trialStep p s r) := by
    simp [trialLoop, ht, hc]
  rw [h1, hs]
  refine trialLoop_exit p rest _ ?_
  intro hcontra
  have h2 := sampleWitness_ge_two p r
  have h3 : sampleWitness p r = 0 := hcontra.2
  omega

/-- Claim C3: once the congruence check of a trial fails, the loop terminates
immediately: the body runs exactly once more (incrementing trial) and the
remaining rand() values are returned unconsumed, so no further witnesses
are drawn and no further trials run. -/
theorem failing_trial_terminates_loop (p r : Nat) (rest : List Nat)
    (s : LoopState) (ht : s.trial < 20) (hc : s.composite_witness = 0)
    (hf : congruence_holds p (sampleWitness p r) = false) :
    trialLoop p (r :: rest) s = (trialStep p s r, rest) ∧
      (trialStep p s r).trial = s.trial + 1 := by
  have hs : trialStep p s r =
      ⟨s.trial + 1, sampleWitness p r, s.a1, sampleWitness p r⟩ := by
    simp [trialStep, hf]
  rw [trialLoop_fail_step p r rest s ht hc hf, hs]
  exact ⟨rfl, rfl⟩

/-- Witness for C3: candidate 4, failing witness 2, with 2 rand() values
left over. -/
theorem failing_trial_terminates_loop_witness :
    (initLoop.trial < 20 ∧ initLoop.composite_witness = 0 ∧
      congruence_holds 4 (sampleWitness 4 0) = false) ∧
    (trialLoop 4 (0 :: [1, 2]) initLoop = (trialStep 4 initLoop 0, [1, 2]) ∧
      (trialStep 4 initLoop 0).trial = initLoop.trial + 1) :=
  ⟨⟨by decide, by decide, by decide⟩,
    failing_trial_terminates_loop 4 0 [1, 2] initLoop (by decide) (by decide)
      (by decide)⟩

/-- Claim C5: when the very first trial fails, the outcome is Composite
with that witness and no fermat liar. -/
theorem first_trial_failure_no_liar (p r : Nat) (rest : List Nat)
    (hf : congruence_holds p (sampleWitness p r) = false) :
    outcomeOf (runCandidate p (r :: rest)).1 =
      TestOutcome.Composite (sampleWitness p r) none := by
  unfold runCandidate
  rw [trialLoop_fail_step p r rest initLoop (by decide) rfl hf]
  have h2 : ¬ sampleWitness p r = 0 := by
    have := sampleWitness_ge_two p r; omega
  simp [outcomeOf, initLoop, h2]

/-- Witness for C5: candidate 4, first rand() value 0 samples witness 2,
which fails. -/
theorem first_trial_failure_no_liar_witness :
    congruence_holds 4 (sampleWitness 4 0) = false ∧
    outcomeOf (runCandidate 4 (0 :: [])).1 =
      TestOutcome.Composite (sampleWitness 4 0) none :=
  ⟨by decide, first_trial_failure_no_liar 4 0 [] (by decide)⟩

/-- Claim C8: for p >= 3 the sampled witness always lies in [2, p - 1],
and for p = 3 it is always exactly 2. -/
theorem sampled_witness_in_range (p r : Nat) (hp : 3 ≤ p) :
    2 ≤ sampleWitness p r ∧ sampleWitness p r ≤ p - 1 ∧
      (p = 3 → sampleWitness p r = 2) := by
  refine ⟨sampleWitness_ge_two p r, ?_, ?_⟩
  · have h := Nat.mod_lt r (show 0 < p - 2 by omega)
    unfold sampleWitness
    omega
  · intro h3
    subst h3
    simp [sampleWitness, Nat.mod_one]

/-- Witness for C8 at p = 3 with rand() value 7. -/
theorem sampled_witness_in_range_witness :
    3 ≤ 3 ∧ (2 ≤ sampleWitness 3 7 ∧ sampleWitness 3 7 ≤ 3 - 1 ∧
      (3 = 3 → sampleWitness 3 7 = 2)) :=
  ⟨by decide, sampled_witness_in_range 3 7 (by decide)⟩

/-- The two adjacent string pieces of the composite-with-liar line merge
into the single literal of the spec template. -/
lemma witness_dash_merge (z : String) :
    (" is a composite witness" : String) ++ (" - " ++ z) =
      " is a composite witness - " ++ z := by
  have h : (" is a composite witness" : String) ++ " - " =
      " is a composite witness - " := rfl
  rw [← String.append_assoc, h]

/-- Claim C7: for every final loop state, the line the program assembles
with its printf calls equals the verbatim format the spec prescribes for
the corresponding outcome. -/
theorem report_format_matches_spec (p : Nat) (s : LoopState) :
    reportLine p s = specLine p (outcomeOf s) := by
  unfold reportLine specLine outcomeOf
  by_cases h : s.composite_witness = 0
  · simp [h]
  · by_cases hl : 0 < s.fermat_liar
    · simp [h, hl, String.append_assoc, witness_dash_merge]
    · simp [h, hl]

/-- The loop body with the shared mpz variables threaded equals the pure
body paired with the overwritten variables: the incoming contents of a, e,
r1 never influence the result, because the body fully overwrites them
before reading. -/
lemma trialStepM_eq (p : Nat) (s : LoopState) (m : MpzState) (r : Nat) :
    trialStepM p s m r =
      (trialStep p s r, (congrStep p (sampleWitness p r) m).1) := by
  cases hb : congruence_holds p (sampleWitness p r) with
  | false =>
    have hb2 : (congrStep p (sampleWitness p r) m).2 = false := hb
    simp [trialStepM, trialStep, hb, hb2]
  | true =>
    have hb2 : (congrStep p (sampleWitness p r) m).2 = true := hb
    simp [trialStepM, trialStep, hb, hb2]

/-- The whole trial loop with shared, reused mpz storage computes the same
loop variables and consumes the same rand() values as the pure loop,
whatever the storage initially contains. -/
lemma trialLoopM_eq (p : Nat) (rands : List Nat) :
    ∀ (s : LoopState) (m : MpzState),
      (trialLoopM p rands s m).1.1 = (trialLoop p rands s).1 ∧
        (trialLoopM p rands s m).2 = (trialLoop p rands s).2 := by
  induction rands with
  | nil => intro s m; exact ⟨rfl, rfl⟩
  | cons r rest ih =>
    intro s m
    by_cases h : s.trial < 20 ∧ s.composite_witness = 0
    · simp only [trialLoopM, trialLoop, if_pos h, trialStepM_eq]
      exact ih (trialStep p s r) (congrStep p (sampleWitness p r) m).1
    · simp [trialLoopM, trialLoop, h]

/-- Claim C9: the congruence evaluation is a pure deterministic function
of (p, a1): evaluating it on the shared accumulator variables gives the
same answer whatever they previously held, equal to congruence_holds p a1;
and running the whole trial loop reusing the shared mpz storage across
trials is observationally equivalent to the storage-free loop. -/
theorem congruence_pure_and_reuse_equiv (p : Nat) (rands : List Nat)
    (s : LoopState) (m : MpzState) :
    ((trialLoopM p rands s m).1.1 = (trialLoop p rands s).1 ∧
      (trialLoopM p rands s m).2 = (trialLoop p rands s).2) ∧
    (∀ a1 : Nat, ∀ m1 m2 : MpzState,
      congrStep p a1 m1 = congrStep p a1 m2 ∧
        (congrStep p a1 m1).2 = congruence_holds p a1) :=
  ⟨trialLoopM_eq p rands s m, fun _ _ _ => ⟨rfl, rfl⟩⟩

/-- Running the loop through a prefix of trials that all pass: trial
advances by the length of the prefix, composite_witness stays 0,
fermat_liar is untouched, and a1 ends as the last sampled witness
(computed by the replacing fold). -/
lemma trialLoop_passing_run (p : Nat) :
    ∀ (rs rest : List Nat) (s : LoopState),
      (∀ r ∈ rs, congruence_holds p (sampleWitness p r) = true) →
      s.composite_witness = 0 → s.trial + rs.length ≤ 20 →
      trialLoop p (rs ++ rest) s =
        trialLoop p rest ⟨s.trial + rs.length, 0, s.fermat_liar,
          rs.foldl (fun _ r => sampleWitness p r) s.a1⟩ := by
  intro rs
  induction rs with
  | nil =>
    intro rest s hpass hc hlen
    obtain ⟨t, cw, fl, a⟩ := s
    simp only [List.nil_append, List.length_nil, Nat.add_zero, List.foldl_nil]
    simp only [LoopState.composite_witness] at hc
    subst hc
    rfl
  | cons r rs ih =>
    intro rest s hpass hc hlen
    simp only [List.length_cons] at hlen
    have ht : s.trial < 20 := by omega
    have hpr : congruence_holds p (sampleWitness p r) = true :=
      hpass r (List.mem_cons_self r rs)
    have hstep : trialStep p s r =
        ⟨s.trial + 1, s.composite_witness, s.fermat_liar, sampleWitness p r⟩ := by
      simp [trialStep, hpr]
    have h1 : trialLoop p ((r :: rs) ++ rest) s =
        trialLoop p (rs ++ rest) (trialStep p s r) := by
      simp [trialLoop, ht, hc]
    have hc2 : (⟨s.trial + 1, s.composite_witness, s.fermat_liar,
        sampleWitness p r⟩ : LoopState).composite_witness = 0 := hc
    have hlen2 : (⟨s.trial + 1, s.composite_witness, s.fermat_liar,
        sampleWitness p r⟩ : LoopState).trial + rs.length ≤ 20 := by
      show s.trial + 1 + rs.length ≤ 20
      omega
    have ih2 := ih rest
      ⟨s.trial + 1, s.composite_witness, s.fermat_liar, sampleWitness p r⟩
      (fun x hx => hpass x (List.mem_cons_of_mem r hx)) hc2 hlen2
    rw [h1, hstep, ih2]
    simp only [List.length_cons, List.foldl_cons]
    have hA : s.trial + 1 + rs.length = s.trial + (rs.length + 1) := by omega
    rw [hA]

/-- A fold that just replaces the accumulator with f of each element ends
at f of the last element. -/
lemma foldl_replace_getLast (f : Nat → Nat) :
    ∀ (l : List Nat) (x y : Nat), l.getLast? = some y →
      l.foldl (fun _ r => f r) x = f y := by
  intro l
  induction l with
  | nil => intro x y h; simp at h
  | cons a t ih =>
    intro x y h
    cases t with
    | nil =>
      simp at h
      subst h
      simp
    | cons b t2 =>
      rw [List.foldl_cons]
      refine ih (f a) y ?_
      rw [← h]
      exact List.getLast?_cons_cons.symm

/-- Claim C2: when the failing trial has index N > 0, the reported fermat
liar is exactly the witness that passed at trial N-1 (the last element of
the passing prefix), never any earlier passing witness; in particular if
trial 0 passes with witness a0 and trial 1 fails with witness a1 the
outcome is Composite with witness a1 and liar a0. -/
theorem liar_is_previous_witness (p : Nat) (rs : List Nat) (rf rlast : Nat)
    (rest : List Nat) (hlast : rs.getLast? = some rlast)
    (hlen : rs.length ≤ 19)
    (hpass : ∀ r ∈ rs, congruence_holds p (sampleWitness p r) = true)
    (hfail : congruence_holds p (sampleWitness p rf) = false) :
    outcomeOf (runCandidate p (rs ++ rf :: rest)).1 =
      TestOutcome.Composite (sampleWitness p rf)
        (some (sampleWitness p rlast)) := by
  unfold runCandidate
  rw [trialLoop_passing_run p rs (rf :: rest) initLoop hpass rfl
    (by simp [initLoop]; omega)]
  rw [foldl_replace_getLast (sampleWitness p) rs initLoop.a1 rlast hlast]
  have ht : (⟨initLoop.trial + rs.length, 0, initLoop.fermat_liar,
      sampleWitness p rlast⟩ : LoopState).trial < 20 := by
    show initLoop.trial + rs.length < 20
    simp [initLoop]
    omega
  rw [trialLoop_fail_step p rf rest _ ht rfl hfail]
  have h2 : ¬ sampleWitness p rf = 0 := by
    have := sampleWitness_ge_two p rf; omega
  have h3 : 0 < sampleWitness p rlast := by
    have := sampleWitness_ge_two p rlast; omega
  simp [outcomeOf, h2, h3]

/-- Witness for C2: candidate 6, rand() value 1 samples witness 3 (which
passes: 3^6 - 3 = 726 is divisible by 6), then rand() value 0 samples
witness 2 (which fails). -/
theorem liar_is_previous_witness_witness :
    ([1].getLast? = some 1 ∧ [1].length ≤ 19 ∧
      (∀ r ∈ [1], congruence_holds 6 (sampleWitness 6 r) = true) ∧
      congruence_holds 6 (sampleWitness 6 0) = false) ∧
    outcomeOf (runCandidate 6 ([1] ++ 0 :: [])).1 =
      TestOutcome.Composite (sampleWitness 6 0) (some (sampleWitness 6 1)) :=
  ⟨⟨by decide, by decide, by decide, by decide⟩,
    liar_is_previous_witness 6 [1] 0 1 [] (by decide) (by decide) (by decide)
      (by decide)⟩

/-- Claim C4: the trial budget is the fixed constant 20: when the first 20
trials all pass the congruence check, exactly 20 trials are attempted
(trial ends at 20), the candidate is classified ProbablePrime, and exactly
20 rand() values are consumed. -/
theorem twenty_trials_probable_prime (p : Nat) (rs rest : List Nat)
    (hlen : rs.length = 20)
    (hpass : ∀ r ∈ rs, congruence_holds p (sampleWitness p r) = true) :
    (runCandidate p (rs ++ rest)).1.trial = 20 ∧
      outcomeOf (runCandidate p (rs ++ rest)).1 = TestOutcome.ProbablePrime ∧
      (runCandidate p (rs ++ rest)).2 = rest := by
  unfold runCandidate
  rw [trialLoop_passing_run p rs rest initLoop hpass rfl
    (by simp [initLoop, hlen])]
  rw [trialLoop_exit p rest _ (by
    intro hcontra
    have h0 : initLoop.trial + rs.length < 20 := hcontra.1
    simp [initLoop, hlen] at h0)]
  refine ⟨by simp [initLoop, hlen], ?_, rfl⟩
  simp [outcomeOf, initLoop, hlen]

/-- Witness for C4: candidate 7 (a prime), 20 rand() values 0, each
sampling witness 2, which always passes since 2^7 - 2 = 126 = 18 * 7. -/
theorem twenty_trials_probable_prime_witness :
    ((List.replicate 20 0).length = 20 ∧
      (∀ r ∈ List.replicate 20 0,
        congruence_holds 7 (sampleWitness 7 r) = true)) ∧
    ((runCandidate 7 (List.replicate 20 0 ++ [3])).1.trial = 20 ∧
      outcomeOf (runCandidate 7 (List.replicate 20 0 ++ [3])).1 =
        TestOutcome.ProbablePrime ∧
      (runCandidate 7 (List.replicate 20 0 ++ [3])).2 = [3]) :=
  ⟨⟨by decide, by decide⟩,
    twenty_trials_probable_prime 7 (List.replicate 20 0) [3] (by decide)
      (by decide)⟩

/-- The candidates visited by scanGo p n are exactly p, p+1, ..., p+n-1 in
order, one outcome each, whatever the rand() stream holds. -/
lemma scanGo_map_fst :
    ∀ (n p : Nat) (rands : List Nat),
      (scanGo p n rands).map Prod.fst = List.range' p n := by
  intro n
  induction n with
  | zero => intro p rands; rfl
  | succ k ih =>
    intro p rands
    simp only [scanGo, List.map_cons, List.range'_succ]
    rw [ih (p + 1) (runCandidate p rands).2]

/-- Claim C6: the range scanner visits every integer candidate
p = 3, 4, ..., max - 1 in strictly increasing order, skipping none, and
produces exactly one outcome per candidate; in particular scanning [3, 20)
produces exactly 17 outcomes in increasing order of p. -/
theorem scan_visits_all_candidates (max : Nat) (rands : List Nat) :
    (scan max rands).map Prod.fst = List.range' 3 (max - 3) ∧
      (scan 20 rands).length = 17 := by
  constructor
  · exact scanGo_map_fst (max - 3) 3 rands
  · have h := congrArg List.length (scanGo_map_fst 17 3 rands)
    simpa using h

/-- Characterisation of the composite_witness sentinel: starting from a
running state, the loop ends with composite_witness = 0 exactly when every
witness sampled within the remaining trial budget passes the congruence
check. -/
lemma trialLoop_cw_iff (p : Nat) :
    ∀ (rands : List Nat) (s : LoopState),
      s.composite_witness = 0 → 20 - s.trial ≤ rands.length →
      ((trialLoop p rands s).1.composite_witness = 0 ↔
        ∀ r ∈ rands.take (20 - s.trial),
          congruence_holds p (sampleWitness p r) = true) := by
  intro rands
  induction rands with
  | nil =>
    intro s hc hlen
    simp only [List.length_nil, Nat.le_zero] at hlen
    simp [trialLoop, hlen, hc]
  | cons r rest ih =>
    intro s hc hlen
    simp only [List.length_cons] at hlen
    by_cases ht : s.trial < 20
    · have hk : 20 - s.trial = (20 - (s.trial + 1)) + 1 := by omega
      have h1 : trialLoop p (r :: rest) s = trialLoop p rest (trialStep p s r) := by
        simp [trialLoop, ht, hc]
      rw [h1, hk, List.take_succ_cons]
      cases hb : congruence_holds p (sampleWitness p r) with
      | true =>
        have hstep : trialStep p s r =
            ⟨s.trial + 1, s.composite_witness, s.fermat_liar,
              sampleWitness p r⟩ := by
          simp [trialStep, hb]
        rw [hstep]
        have ih2 : (trialLoop p rest
            ⟨s.trial + 1, s.composite_witness, s.fermat_liar,
              sampleWitness p r⟩).1.composite_witness = 0 ↔
            ∀ x ∈ rest.take (20 - (s.trial + 1)),
              congruence_holds p (sampleWitness p x) = true :=
          ih ⟨s.trial + 1, s.composite_witness, s.fermat_liar,
            sampleWitness p r⟩ hc (by show 20 - (s.trial + 1) ≤ rest.length; omega)
        rw [ih2]
        simp [hb]
      | false =>
        have hstep : trialStep p s r =
            ⟨s.trial + 1, sampleWitness p r, s.a1, sampleWitness p r⟩ := by
          simp [trialStep, hb]
        rw [hstep, trialLoop_exit p rest _ (by
          intro hcontra
          have h2 := sampleWitness_ge_two p r
          have h3 : sampleWitness p r = 0 := hcontra.2
          omega)]
        have h2 := sampleWitness_ge_two p r
        simp [List.forall_mem_cons, hb]
        omega
    · have h0 : 20 - s.trial = 0 := by omega
      rw [trialLoop_exit p (r :: rest) s (fun hh => ht hh.1)]
      simp [h0, hc]

/-- Characterisation of the fermat_liar sentinel: starting from a running
state with no liar recorded and a1 positive exactly when a trial has
already run, the loop ends with fermat_liar > 0 exactly when some witness
within the remaining budget fails and the failing trial is not the very
first trial overall. -/
lemma trialLoop_liar_iff (p : Nat) :
    ∀ (rands : List Nat) (s : LoopState),
      s.composite_witness = 0 → s.fermat_liar = 0 →
      (0 < s.a1 ↔ 0 < s.trial) → 20 - s.trial ≤ rands.length →
      (0 < (trialLoop p rands s).1.fermat_liar ↔
        ((∃ r ∈ rands.take (20 - s.trial),
            congruence_holds p (sampleWitness p r) = false) ∧
          (0 < s.trial ∨
            congruence_holds p (sampleWitness p (rands.getD 0 0)) = true))) := by
  intro rands
  induction rands with
  | nil =>
    intro s hc hl ha hlen
    simp only [List.length_nil, Nat.le_zero] at hlen
    simp [trialLoop, hlen, hl]
  | cons r rest ih =>
    intro s hc hl ha hlen
    simp only [List.length_cons] at hlen
    by_cases ht : s.trial < 20
    · have hk : 20 - s.trial = (20 - (s.trial + 1)) + 1 := by omega
      have h1 : trialLoop p (r :: rest) s = trialLoop p rest (trialStep p s r) := by
        simp [trialLoop, ht, hc]
      rw [h1, hk, List.take_succ_cons]
      cases hb : congruence_holds p (sampleWitness p r) with
      | true =>
        have hstep : trialStep p s r =
            ⟨s.trial + 1, s.composite_witness, s.fermat_liar,
              sampleWitness p r⟩ := by
          simp [trialStep, hb]
        rw [hstep]
        have hsamp := sampleWitness_ge_two p r
        have ih2 : 0 < (trialLoop p rest
            ⟨s.trial + 1, s.composite_witness, s.fermat_liar,
              sampleWitness p r⟩).1.fermat_liar ↔
            ((∃ x ∈ rest.take (20 - (s.trial + 1)),
                congruence_holds p (sampleWitness p x) = false) ∧
              (0 < s.trial + 1 ∨
                congruence_holds p (sampleWitness p (rest.getD 0 0)) = true)) :=
          ih ⟨s.trial + 1, s.composite_witness, s.fermat_liar,
            sampleWitness p r⟩ hc hl
            (by show 0 < sampleWitness p r ↔ 0 < s.trial + 1; omega)
            (by show 20 - (s.trial + 1) ≤ rest.length; omega)
        rw [ih2]
        simp [hb]
      | false =>
        have hstep : trialStep p s r =
            ⟨s.trial + 1, sampleWitness p r, s.a1, sampleWitness p r⟩ := by
          simp [trialStep, hb]
        rw [hstep, trialLoop_exit p rest _ (by
          intro hcontra
          have h2 := sampleWitness_ge_two p r
          have h3 : sampleWitness p r = 0 := hcontra.2
          omega)]
        simp [hb, ha]
    · have h0 : 20 - s.trial = 0 := by omega
      rw [trialLoop_exit p (r :: rest) s (fun hh => ht hh.1)]
      simp [h0, hl]

/-- Claim C10: the zero sentinels never collide with real data: after the
trial loop (with at least 20 rand() values available), composite_witness
is 0 exactly when no trial failed (all 20 sampled witnesses passed), so
the ProbablePrime branch is taken exactly then; and fermat_liar > 0
exactly when some trial failed and the failing trial had index > 0 (the
very first sampled witness passed), so the liar clause is printed exactly
when a prior trial passed. -/
theorem sentinel_no_collision (p : Nat) (rands : List Nat) (hp : 3 ≤ p)
    (hlen : 20 ≤ rands.length) :
    ((runCandidate p rands).1.composite_witness = 0 ↔
      ∀ r ∈ rands.take 20, congruence_holds p (sampleWitness p r) = true) ∧
    (0 < (runCandidate p rands).1.fermat_liar ↔
      ((∃ r ∈ rands.take 20, congruence_holds p (sampleWitness p r) = false) ∧
        congruence_holds p (sampleWitness p (rands.getD 0 0)) = true)) := by
  have hlen2 : 20 - initLoop.trial ≤ rands.length := by
    simp only [initLoop]
    omega
  constructor
  · have h := trialLoop_cw_iff p rands initLoop rfl hlen2
    simpa [initLoop] using h
  · have ha : 0 < initLoop.a1 ↔ 0 < initLoop.trial := by simp [initLoop]
    have h := trialLoop_liar_iff p rands initLoop rfl rfl ha hlen2
    simpa [initLoop] using h

/-- Witness for C10: candidate 4 with 20 rand() values 0: witness 2 fails
at trial 0, so composite_witness = 2 and no liar is recorded. -/
theorem sentinel_no_collision_witness :
    (3 ≤ 4 ∧ 20 ≤ (List.replicate 20 0).length) ∧
    (((runCandidate 4 (List.replicate 20 0)).1.composite_witness = 0 ↔
      ∀ r ∈ (List.replicate 20 0).take 20,
        congruence_holds 4 (sampleWitness 4 r) = true) ∧
    (0 < (runCandidate 4 (List.replicate 20 0)).1.fermat_liar ↔
      ((∃ r ∈ (List.replicate 20 0).take 20,
          congruence_holds 4 (sampleWitness 4 r) = false) ∧
        congruence_holds 4
          (sampleWitness 4 ((List.replicate 20 0).getD 0 0)) = true))) :=
  ⟨⟨by decide, by decide⟩,
    sentinel_no_collision 4 (List.replicate 20 0) (by decide) (by decide)⟩
